import Mathlib

/-!
Verification development for the `algos` library: a shallow embedding of the
array-backed binary-heap algorithms (`src/Algorithm.hpp`, `src/Heap.hpp`) and of
the two balanced-search-tree implementations (`src/AvlTree.hpp`,
`src/RedBlackTree.hpp`), together with proofs and refutations of the stated
properties of the library.
-/

set_option maxHeartbeats 1000000

namespace Algos

/-! ## Heap algorithms (src/Algorithm.hpp, src/Heap.hpp)

The element storage is modelled as a total function `Nat → α` with an explicit
element count, and the comparator as a boolean predicate, mirroring the C++
template parameters.  The C++ loops terminate because their index strictly
decreases (sift-up) or strictly increases towards the range end (sift-down);
the Lean embedding makes that bound explicit as a `fuel` argument, and every
caller passes enough fuel for the loop to run to its real end. -/

def swapAt {α : Type} (f : Nat → α) (i j : Nat) : Nat → α :=
  fun k => if k = i then f j else if k = j then f i else f k

def setAt {α : Type} (f : Nat → α) (i : Nat) (v : α) : Nat → α :=
  fun k => if k = i then v else f k

/-- The loop of `algos::push_heap` (Algorithm.hpp lines 18-32).  `c` is the
index of the element being sifted up; the parent index is `(c-1)/2`; the loop
stops at the root or as soon as the comparator places the child strictly below
the parent, and otherwise swaps (also when the two are comparator-equal). -/
def siftUpLoop {α : Type} (cmp : α → α → Bool) : Nat → (Nat → α) → Nat → (Nat → α)
  | 0, f, _ => f
  | fuel+1, f, c =>
    if c = 0 then f
    else
      let p := (c - 1) / 2
      if cmp (f c) (f p) then f
      else siftUpLoop cmp fuel (swapAt f p c) p

/-- `algos::push_heap` on a range of `n` elements. -/
def push_heap {α : Type} (cmp : α → α → Bool) (f : Nat → α) (n : Nat) : Nat → α :=
  if n = 0 then f else siftUpLoop cmp n f (n - 1)

/-- Child selection of the sift-down loops: move to the right child only when it
exists and the comparator ranks it above the left child. -/
def pickChild {α : Type} (cmp : α → α → Bool) (f : Nat → α) (m c : Nat) : Nat :=
  if c + 1 < m && cmp (f c) (f (c + 1)) then c + 1 else c

/-- The loop of `algos::pop_heap` (Algorithm.hpp lines 48-64): sift the element
at `p` down inside the range `[0, m)`, `c` being the left-child index `2*p+1`. -/
def siftDownLoop {α : Type} (cmp : α → α → Bool) :
    Nat → (Nat → α) → Nat → Nat → Nat → (Nat → α)
  | 0, f, _, _, _ => f
  | fuel+1, f, m, p, c =>
    if c < m then
      let cc := pickChild cmp f m c
      if cmp (f cc) (f p) then f
      else siftDownLoop cmp fuel (swapAt f p cc) m cc (2 * cc + 1)
    else f

/-- `algos::pop_heap` on a range of `n` elements: swap the first and last
element, then sift the new first element down inside the shrunk range. -/
def pop_heap {α : Type} (cmp : α → α → Bool) (f : Nat → α) (n : Nat) : Nat → α :=
  if n = 0 then f
  else siftDownLoop cmp n (swapAt f 0 (n - 1)) (n - 1) 0 1

/-- The `algos::Heap` priority-queue adapter (src/Heap.hpp): a size plus the
backing storage. -/
structure Heap (α : Type) where
  n : Nat
  f : Nat → α

/-- `Heap::push`: append then sift up. -/
def Heap.push {α : Type} (cmp : α → α → Bool) (h : Heap α) (v : α) : Heap α :=
  ⟨h.n + 1, push_heap cmp (setAt h.f h.n v) (h.n + 1)⟩

/-- `Heap::pop`: `pop_heap` then drop the last element. -/
def Heap.popQ {α : Type} (cmp : α → α → Bool) (h : Heap α) : Heap α :=
  ⟨h.n - 1, pop_heap cmp h.f h.n⟩

/-- `Heap::top`.  Reading the front of an empty container is a precondition
violation in the C++, modelled here as `none`. -/
def Heap.top {α : Type} (h : Heap α) : Option α :=
  if h.n = 0 then none else some (h.f 0)

/-- The binary-heap property over the first `n` positions: the parent is never
comparator-less than the child, for every non-root index. -/
def heapProp {α : Type} (cmp : α → α → Bool) (f : Nat → α) (n : Nat) : Prop :=
  ∀ i, i < n → 0 < i → cmp (f ((i - 1) / 2)) (f i) = false

/-- The contents of the first `n` positions, as a list. -/
def listOf {α : Type} (f : Nat → α) (n : Nat) : List α := (List.range n).map f

/-- Pop `k` times, collecting `top()` before each pop. -/
def drain {α : Type} (cmp : α → α → Bool) : Nat → Heap α → List α
  | 0, _ => []
  | k+1, h => if h.n = 0 then [] else h.f 0 :: drain cmp k (Heap.popQ cmp h)

/-- Push every element of `l` in order. -/
def pushAll {α : Type} (cmp : α → α → Bool) (l : List α) (h : Heap α) : Heap α :=
  l.foldl (fun acc v => Heap.push cmp acc v) h

/-- The natural-order comparator on `Nat`, the default `std::less<>`. -/
def cmpN : Nat → Nat → Bool := fun a b => decide (a < b)

/-- A strict-weak-order comparator on pairs ranking only the first component:
distinct pairs can be comparator-equivalent. -/
def cmpPair : Nat × Nat → Nat × Nat → Bool := fun a b => decide (a.1 < b.1)

/-- A two-element range holding two comparator-equivalent but distinct pairs. -/
def fPair : Nat → Nat × Nat := fun k => if k = 0 then (5, 0) else (5, 1)

/-- Loop invariant of the sift-up phase: the heap property holds everywhere
except possibly at position `c`, and (when `c` is not the root) `c`'s parent
already dominates `c`'s children. -/
def heapExceptUp {α : Type} (cmp : α → α → Bool) (f : Nat → α) (n c : Nat) : Prop :=
  (∀ i, i < n → 0 < i → i ≠ c → cmp (f ((i - 1) / 2)) (f i) = false) ∧
  (0 < c → ∀ j, j < n → (j - 1) / 2 = c → cmp (f ((c - 1) / 2)) (f j) = false)

/-- Loop invariant of the sift-down phase: the heap property holds at every
position whose parent is not `p`, and (when `p` is not the root) `p`'s parent
dominates `p`'s children. -/
def heapExceptDown {α : Type} (cmp : α → α → Bool) (f : Nat → α) (m p : Nat) : Prop :=
  (∀ i, i < m → 0 < i → (i - 1) / 2 ≠ p → cmp (f ((i - 1) / 2)) (f i) = false) ∧
  (0 < p → ∀ j, j < m → (j - 1) / 2 = p → cmp (f ((p - 1) / 2)) (f j) = false)

/-- The transposition of two indices, as a function on `Nat`. -/
def swapN (i j : Nat) : Nat → Nat :=
  fun k => if k = i then j else if k = j then i else k

/-- Concrete three-element max-heap used to instantiate the heap theorems. -/
def fHeap3 : Nat → Nat := fun k => if k = 0 then 3 else if k = 1 then 1 else 2

/-- Concrete two-element range whose last element is strictly below its
parent. -/
def fDown : Nat → Nat := fun k => if k = 0 then 5 else 3

/-! ## Balanced search trees (src/AvlTree.hpp, src/RedBlackTree.hpp)

Both trees are pointer structures whose nodes carry an owning `left`/`right`
child pointer and a non-owning `parent` back-pointer.  They are embedded as an
arena: a list of nodes addressed by index, plus the root index.  A C++
`std::unique_ptr<Node>&` "slot" (the tree's root handle or a node's child
field) becomes the `Slot` type, and every pointer statement of the C++ is
replayed in order as an arena update; moving out of a `unique_ptr` nulls its
slot, destruction merely drops the last reference (destroyed nodes linger in
the arena as unreachable garbage, which a pointer model may ignore).  A C++
null-pointer dereference has no defined result; the embedding returns `none`
there.  Recursions are bounded by explicit fuel that every entry point sets
beyond the acyclic-path length; a cyclic (corrupted) graph exhausts the fuel
and also yields `none`.  The metadata field `tag` is the AVL `height` (an
`Int`, since empty subtrees count as height `-1`) or the red/black flag. -/

structure TNode (K V M : Type) where
  key : K
  val : V
  parent : Option Nat
  tag : M
  left : Option Nat
  right : Option Nat
deriving DecidableEq

structure Arena (K V M : Type) where
  nodes : List (TNode K V M)
  root : Option Nat
deriving DecidableEq

/-- A `std::unique_ptr<Node>&` location: the tree's root handle, or the left or
right child field of the node at an index. -/
inductive Slot where
  | rt : Slot
  | lf : Nat → Slot
  | rg : Nat → Slot
deriving DecidableEq

def modList {β : Type} : List β → Nat → (β → β) → List β
  | [], _, _ => []
  | b :: bs, 0, g => g b :: bs
  | b :: bs, n+1, g => b :: modList bs n g

section TreeModel

variable {K V M : Type}

def getN (s : Arena K V M) (i : Nat) : Option (TNode K V M) := s.nodes[i]?

def modN (s : Arena K V M) (i : Nat) (g : TNode K V M → TNode K V M) :
    Arena K V M :=
  { s with nodes := modList s.nodes i g }

def setLeft (s : Arena K V M) (i : Nat) (o : Option Nat) : Arena K V M :=
  modN s i (fun nd => { nd with left := o })

def setRight (s : Arena K V M) (i : Nat) (o : Option Nat) : Arena K V M :=
  modN s i (fun nd => { nd with right := o })

def setParent (s : Arena K V M) (i : Nat) (o : Option Nat) : Arena K V M :=
  modN s i (fun nd => { nd with parent := o })

def setTag (s : Arena K V M) (i : Nat) (t : M) : Arena K V M :=
  modN s i (fun nd => { nd with tag := t })

def setKV (s : Arena K V M) (i : Nat) (k : K) (v : V) : Arena K V M :=
  modN s i (fun nd => { nd with key := k, val := v })

def getSlot (s : Arena K V M) : Slot → Option Nat
  | Slot.rt => s.root
  | Slot.lf i => (getN s i).bind (fun nd => nd.left)
  | Slot.rg i => (getN s i).bind (fun nd => nd.right)

def setSlot (s : Arena K V M) : Slot → Option Nat → Arena K V M
  | Slot.rt, o => { s with root := o }
  | Slot.lf i, o => setLeft s i o
  | Slot.rg i, o => setRight s i o

/-- `while(tmp->left) tmp = tmp->left.get();` -/
def leftmostFrom (s : Arena K V M) : Nat → Nat → Option Nat
  | 0, _ => none
  | fuel+1, i =>
    match getN s i with
    | none => none
    | some nd =>
      match nd.left with
      | none => some i
      | some l => leftmostFrom s fuel l

/-- The parent-climbing phase of `Iterator::operator++` (both trees, lines
40-45): climb while arriving from the right, stop at the parent reached from
the left, or at null (end). -/
def climbUp (s : Arena K V M) : Nat → Nat → Option (Option Nat)
  | 0, _ => none
  | fuel+1, cur =>
    match getN s cur with
    | none => none
    | some nd =>
      match nd.parent with
      | none => some none
      | some p =>
        if (getN s p).bind (fun x => x.left) = some cur then some (some p)
        else climbUp s fuel p

/-- `Iterator::operator++` (both trees, lines 32-47): leftmost node of the
right subtree when it exists, otherwise climb the parent chain. -/
def succIt (s : Arena K V M) (i : Nat) : Option (Option Nat) :=
  match getN s i with
  | none => none
  | some nd =>
    match nd.right with
    | some r => (leftmostFrom s (s.nodes.length + 1) r).map some
    | none => climbUp s (s.nodes.length + 1) i

/-- `begin()` / `beginHelper`: leftmost node from the root, or end when the
tree is empty. -/
def beginIt (s : Arena K V M) : Option (Option Nat) :=
  match s.root with
  | none => some none
  | some r => (leftmostFrom s (s.nodes.length + 1) r).map some

/-- Collect the keys visited by repeatedly applying `operator++` from a
starting iterator until `end()`. -/
def traverseFrom (s : Arena K V M) : Nat → Option Nat → Option (List K)
  | _, none => some []
  | 0, some _ => none
  | fuel+1, some i =>
    match getN s i with
    | none => none
    | some nd =>
      match succIt s i with
      | none => none
      | some nxt =>
        match traverseFrom s fuel nxt with
        | none => none
        | some rest => some (nd.key :: rest)

/-- The key sequence observed by iterating from `begin()` to `end()`. -/
def traversalKeys (s : Arena K V M) : Option (List K) :=
  match beginIt s with
  | none => none
  | some st => traverseFrom s (s.nodes.length + 1) st

/-- Structural key membership in the tree hanging from a node (independent of
the comparator). -/
def containsFrom [DecidableEq K] (s : Arena K V M) (k : K) :
    Nat → Option Nat → Bool
  | _, none => false
  | 0, some _ => false
  | fuel+1, some i =>
    match getN s i with
    | none => false
    | some nd =>
      decide (nd.key = k) || containsFrom s k fuel nd.left ||
        containsFrom s k fuel nd.right

/-- Structural key membership from the root. -/
def containsKey [DecidableEq K] (s : Arena K V M) (k : K) : Bool :=
  containsFrom s k (s.nodes.length + 1) s.root

end TreeModel

namespace Avl

/-! Embedding of `algos::AvlTree` (src/AvlTree.hpp).  The node metadata `tag`
is the stored `height`. -/

section AvlModel

variable {K V : Type}

/-- `getHeight` (line 146): null means height `-1`. -/
def getHeight (s : Arena K V Int) (oi : Option Nat) : Int :=
  match oi with
  | none => -1
  | some i =>
    match getN s i with
    | none => -1
    | some nd => nd.tag

/-- `updateHeight` (line 150). -/
def updateHeight (s : Arena K V Int) (i : Nat) : Arena K V Int :=
  match getN s i with
  | none => s
  | some nd => setTag s i (max (getHeight s nd.left) (getHeight s nd.right) + 1)

/-- `getBalanceFactor` (line 155). -/
def getBalanceFactor (s : Arena K V Int) (oi : Option Nat) : Int :=
  match oi with
  | none => 0
  | some i =>
    match getN s i with
    | none => 0
    | some nd => getHeight s nd.left - getHeight s nd.right

/-- `AvlTree::rotateRight` (lines 164-178), statement by statement.  Note that
the moved middle subtree's parent pointer is never touched, and that the final
re-attachment writes `parent->left` unconditionally (or the slot itself when
there is no parent). -/
def rotateRight (s0 : Arena K V Int) (slot : Slot) : Option (Arena K V Int) :=
  match getSlot s0 slot with
  | none => none
  | some oldI =>
    match getN s0 oldI with
    | none => none
    | some old =>
      match old.left with
      | none => none
      | some newI =>
        let s1 := setLeft s0 oldI none
        let par := old.parent
        match getN s1 newI with
        | none => none
        | some newN =>
          let s2 := setRight s1 newI none
          let s3 := setLeft s2 oldI newN.right
          let s4 := setParent s3 oldI (some newI)
          let v2 := getSlot s4 slot
          let s5 := setSlot s4 slot none
          let s6 := setRight s5 newI v2
          let s7 := setParent s6 newI par
          match (getN s7 newI).bind (fun nd => nd.right) with
          | none => none
          | some ri =>
            let s8 := updateHeight s7 ri
            let s9 := updateHeight s8 newI
            match par with
            | some p => some (setLeft s9 p (some newI))
            | none => some (setSlot s9 slot (some newI))

/-- `AvlTree::rotateLeft` (lines 185-199), the mirror image; the final
re-attachment writes `parent->right` unconditionally. -/
def rotateLeft (s0 : Arena K V Int) (slot : Slot) : Option (Arena K V Int) :=
  match getSlot s0 slot with
  | none => none
  | some oldI =>
    match getN s0 oldI with
    | none => none
    | some old =>
      match old.right with
      | none => none
      | some newI =>
        let s1 := setRight s0 oldI none
        let par := old.parent
        match getN s1 newI with
        | none => none
        | some newN =>
          let s2 := setLeft s1 newI none
          let s3 := setRight s2 oldI newN.left
          let s4 := setParent s3 oldI (some newI)
          let v2 := getSlot s4 slot
          let s5 := setSlot s4 slot none
          let s6 := setLeft s5 newI v2
          let s7 := setParent s6 newI par
          match (getN s7 newI).bind (fun nd => nd.left) with
          | none => none
          | some li =>
            let s8 := updateHeight s7 li
            let s9 := updateHeight s8 newI
            match par with
            | some p => some (setRight s9 p (some newI))
            | none => some (setSlot s9 slot (some newI))

/-- `AvlTree::rotate` (lines 207-222): single or double rotation keyed on the
balance factors. -/
def rotate (s : Arena K V Int) (slot : Slot) : Option (Arena K V Int) :=
  if getBalanceFactor s (getSlot s slot) > 1 then
    match getSlot s slot with
    | none => none
    | some i =>
      match (if getBalanceFactor s ((getN s i).bind (fun nd => nd.left)) < 0 then
          rotateLeft s (Slot.lf i)
        else some s) with
      | none => none
      | some s' => rotateRight s' slot
  else if getBalanceFactor s (getSlot s slot) < -1 then
    match getSlot s slot with
    | none => none
    | some i =>
      match (if getBalanceFactor s ((getN s i).bind (fun nd => nd.right)) > 0 then
          rotateRight s (Slot.rg i)
        else some s) with
      | none => none
      | some s' => rotateLeft s' slot
  else some s

/-- `AvlTree::insertHelper` (lines 125-143). -/
def insertHelper (cmp : K → K → Bool) :
    Nat → Arena K V Int → Slot → Option Nat → K → V →
      Option (Arena K V Int × Nat × Bool)
  | 0, _, _, _, _, _ => none
  | fuel+1, s, slot, parent, k, v =>
    match getSlot s slot with
    | none =>
      let idx := s.nodes.length
      let s1 : Arena K V Int :=
        { s with nodes := s.nodes ++ [⟨k, v, parent, 0, none, none⟩] }
      some (setSlot s1 slot (some idx), idx, true)
    | some i =>
      match getN s i with
      | none => none
      | some nd =>
        if cmp k nd.key then
          match insertHelper cmp fuel s (Slot.lf i) (some i) k v with
          | none => none
          | some (s', r, b) =>
            match rotate (updateHeight s' i) slot with
            | none => none
            | some s3 => some (s3, r, b)
        else if cmp nd.key k then
          match insertHelper cmp fuel s (Slot.rg i) (some i) k v with
          | none => none
          | some (s', r, b) =>
            match rotate (updateHeight s' i) slot with
            | none => none
            | some s3 => some (s3, r, b)
        else
          some (s, i, false)

/-- `AvlTree::insert` (line 75). -/
def insert (cmp : K → K → Bool) (s : Arena K V Int) (k : K) (v : V) :
    Option (Arena K V Int × Nat × Bool) :=
  insertHelper cmp (s.nodes.length + 1) s Slot.rt none k v

/-- `AvlTree::eraseHelper` (lines 225-272). -/
def eraseHelper (cmp : K → K → Bool) [DecidableEq K] :
    Nat → Arena K V Int → Slot → K → Option (Arena K V Int × Bool)
  | 0, _, _, _ => none
  | fuel+1, s, slot, k =>
    match getSlot s slot with
    | none => some (s, false)
    | some i =>
      match getN s i with
      | none => none
      | some nd =>
        if cmp k nd.key then
          match eraseHelper cmp fuel s (Slot.lf i) k with
          | none => none
          | some (s', was) =>
            match rotate (updateHeight s' i) slot with
            | none => none
            | some s3 => some (s3, was)
        else if cmp nd.key k then
          match eraseHelper cmp fuel s (Slot.rg i) k with
          | none => none
          | some (s', was) =>
            match rotate (updateHeight s' i) slot with
            | none => none
            | some s3 => some (s3, was)
        else
          let par := nd.parent
          if nd.left = none ∨ nd.right = none then
            let promoted := if nd.left ≠ none then nd.left else nd.right
            let s1 := if nd.left ≠ none then setLeft s i none else setRight s i none
            match promoted with
            | none => some (setSlot s1 slot none, true)
            | some pj =>
              let s2 := setParent s1 pj par
              match par with
              | some p =>
                if (getN s2 p).bind (fun x => x.left) = some i then
                  some (setLeft s2 p (some pj), true)
                else
                  some (setRight s2 p (some pj), true)
              | none => some (setSlot s2 slot (some pj), true)
          else
            match nd.right with
            | none => none
            | some r0 =>
              match leftmostFrom s fuel r0 with
              | none => none
              | some tj =>
                match getN s tj with
                | none => none
                | some tnd =>
                  let s1 := setKV s i tnd.key tnd.val
                  match eraseHelper cmp fuel s1 (Slot.rg i) tnd.key with
                  | none => none
                  | some (s2, _) =>
                    match rotate (updateHeight s2 i) slot with
                    | none => none
                    | some s4 => some (s4, true)

/-- `AvlTree::erase` (line 80). -/
def erase (cmp : K → K → Bool) [DecidableEq K] (s : Arena K V Int) (k : K) :
    Option (Arena K V Int × Bool) :=
  eraseHelper cmp (s.nodes.length + 1) s Slot.rt k

/-- Recomputed height of a subtree, provided every node is height-consistent
(`height = 1 + max`) and height-balanced (`|bf| ≤ 1`); `none` as soon as one
node violates either. -/
def chkBal (s : Arena K V Int) : Nat → Option Nat → Option Int
  | _, none => some (-1)
  | 0, some _ => none
  | fuel+1, some i =>
    match getN s i with
    | none => none
    | some nd =>
      match chkBal s fuel nd.left, chkBal s fuel nd.right with
      | some hl, some hr =>
        if nd.tag = max hl hr + 1 ∧ (hl - hr).natAbs ≤ 1 then
          some (max hl hr + 1)
        else none
      | _, _ => none

end AvlModel

/-- The empty AVL tree over `Nat` keys and values. -/
def emptyA : Arena Nat Nat Int := ⟨[], none⟩

/-- Run a sequence of `insert(k, k)` on the `Nat`-instantiated tree, collecting
the `inserted` flags. -/
def runIns : Arena Nat Nat Int → List Nat → Option (Arena Nat Nat Int × List Bool)
  | s, [] => some (s, [])
  | s, k :: ks =>
    match insert cmpN s k k with
    | none => none
    | some (s', _, b) =>
      match runIns s' ks with
      | none => none
      | some (s2, bs) => some (s2, b :: bs)

end Avl

namespace Rbt

/-! Embedding of `algos::RedBlackTree` (src/RedBlackTree.hpp).  The node
metadata `tag` is the `red` flag; the tree additionally tracks `numElems`. -/

/-- A `RedBlackTree` object: the node arena plus the running element count. -/
structure RState (K V : Type) where
  a : Arena K V Bool
  numElems : Nat
deriving DecidableEq

section RbtModel

variable {K V : Type}

/-- `RedBlackTree::rotateRight` (lines 181-189): like the AVL version but the
slot itself is re-pointed (`oldRoot = std::move(newRoot)`); the moved middle
subtree's parent pointer is again never touched. -/
def rotateRight (s0 : Arena K V Bool) (slot : Slot) : Option (Arena K V Bool) :=
  match getSlot s0 slot with
  | none => none
  | some oldI =>
    match getN s0 oldI with
    | none => none
    | some old =>
      match old.left with
      | none => none
      | some newI =>
        let s1 := setLeft s0 oldI none
        let par := old.parent
        match getN s1 newI with
        | none => none
        | some newN =>
          let s2 := setRight s1 newI none
          let s3 := setLeft s2 oldI newN.right
          let s4 := setParent s3 oldI (some newI)
          let v2 := getSlot s4 slot
          let s5 := setSlot s4 slot none
          let s6 := setRight s5 newI v2
          let s7 := setParent s6 newI par
          some (setSlot s7 slot (some newI))

/-- `RedBlackTree::rotateLeft` (lines 196-204). -/
def rotateLeft (s0 : Arena K V Bool) (slot : Slot) : Option (Arena K V Bool) :=
  match getSlot s0 slot with
  | none => none
  | some oldI =>
    match getN s0 oldI with
    | none => none
    | some old =>
      match old.right with
      | none => none
      | some newI =>
        let s1 := setRight s0 oldI none
        let par := old.parent
        match getN s1 newI with
        | none => none
        | some newN =>
          let s2 := setLeft s1 newI none
          let s3 := setRight s2 oldI newN.left
          let s4 := setParent s3 oldI (some newI)
          let v2 := getSlot s4 slot
          let s5 := setSlot s4 slot none
          let s6 := setLeft s5 newI v2
          let s7 := setParent s6 newI par
          some (setSlot s7 slot (some newI))

/-- First fixup statement of `RedBlackTree::rotate` (lines 216-221):
`if(node->left && node->left->red) { if(!node->right) { rotateRight(node);
node->red = false; } }`, reading the node through the slot. -/
def rotateStepL (s : Arena K V Bool) (slot : Slot) : Option (Arena K V Bool) :=
  match getSlot s slot with
  | none => none
  | some i =>
    match getN s i with
    | none => none
    | some nd =>
      match nd.left with
      | none => some s
      | some li =>
        match getN s li with
        | none => none
        | some lnd =>
          if lnd.tag then
            if nd.right = none then
              match rotateRight s slot with
              | none => none
              | some s2 =>
                match getSlot s2 slot with
                | none => none
                | some j => some (setTag s2 j false)
            else some s
          else some s

/-- Second fixup statement of `RedBlackTree::rotate` (lines 222-227), the
mirror image, re-reading the node through the slot. -/
def rotateStepR (s : Arena K V Bool) (slot : Slot) : Option (Arena K V Bool) :=
  match getSlot s slot with
  | none => none
  | some i =>
    match getN s i with
    | none => none
    | some nd =>
      match nd.right with
      | none => some s
      | some ri =>
        match getN s ri with
        | none => none
        | some rnd =>
          if rnd.tag then
            if nd.left = none then
              match rotateLeft s slot with
              | none => none
              | some s2 =>
                match getSlot s2 slot with
                | none => none
                | some j => some (setTag s2 j false)
            else some s
          else some s

/-- `RedBlackTree::rotate` (lines 212-228): the local-only recolor/rotate
fixup: return unless the node is red, then run both fixup statements in
sequence. -/
def rotate (s : Arena K V Bool) (slot : Slot) : Option (Arena K V Bool) :=
  match getSlot s slot with
  | none => none
  | some i =>
    match getN s i with
    | none => none
    | some nd =>
      if nd.tag = false then some s
      else
        match rotateStepL s slot with
        | none => none
        | some s1 => rotateStepR s1 slot

/-- `RedBlackTree::insertHelper` (lines 152-174): new nodes are red unless they
become the tree root; the element count grows on allocation. -/
def insertHelper (cmp : K → K → Bool) :
    Nat → RState K V → Slot → Option Nat → K → V →
      Option (RState K V × Nat × Bool)
  | 0, _, _, _, _, _ => none
  | fuel+1, st, slot, parent, k, v =>
    match getSlot st.a slot with
    | none =>
      let idx := st.a.nodes.length
      let s1 : Arena K V Bool :=
        { st.a with nodes := st.a.nodes ++ [⟨k, v, parent, parent.isSome, none, none⟩] }
      some (⟨setSlot s1 slot (some idx), st.numElems + 1⟩, idx, true)
    | some i =>
      match getN st.a i with
      | none => none
      | some nd =>
        if cmp k nd.key then
          match insertHelper cmp fuel st (Slot.lf i) (some i) k v with
          | none => none
          | some (st', r, b) =>
            match rotate st'.a slot with
            | none => none
            | some a' => some (⟨a', st'.numElems⟩, r, b)
        else if cmp nd.key k then
          match insertHelper cmp fuel st (Slot.rg i) (some i) k v with
          | none => none
          | some (st', r, b) =>
            match rotate st'.a slot with
            | none => none
            | some a' => some (⟨a', st'.numElems⟩, r, b)
        else
          some (st, i, false)

/-- `RedBlackTree::insert` (line 75). -/
def insert (cmp : K → K → Bool) (st : RState K V) (k : K) (v : V) :
    Option (RState K V × Nat × Bool) :=
  insertHelper cmp (st.a.nodes.length + 1) st Slot.rt none k v

/-- `RedBlackTree::eraseHelper` (lines 231-267). -/
def eraseHelper (cmp : K → K → Bool) [DecidableEq K] :
    Nat → RState K V → Slot → K → Option (RState K V × Bool)
  | 0, _, _, _ => none
  | fuel+1, st, slot, k =>
    match getSlot st.a slot with
    | none => some (st, false)
    | some i =>
      match getN st.a i with
      | none => none
      | some nd =>
        if cmp k nd.key then
          match eraseHelper cmp fuel st (Slot.lf i) k with
          | none => none
          | some (st', was) =>
            match rotate st'.a slot with
            | none => none
            | some a' => some (⟨a', st'.numElems⟩, was)
        else if cmp nd.key k then
          match eraseHelper cmp fuel st (Slot.rg i) k with
          | none => none
          | some (st', was) =>
            match rotate st'.a slot with
            | none => none
            | some a' => some (⟨a', st'.numElems⟩, was)
        else
          if nd.left = none ∨ nd.right = none then
            let promoted := if nd.left ≠ none then nd.left else nd.right
            let s1 := if nd.left ≠ none then setLeft st.a i none
              else setRight st.a i none
            match promoted with
            | none => some (⟨setSlot s1 slot none, st.numElems - 1⟩, true)
            | some pj =>
              let s2 := setParent s1 pj nd.parent
              some (⟨setSlot s2 slot (some pj), st.numElems - 1⟩, true)
          else
            match nd.right with
            | none => none
            | some r0 =>
              match leftmostFrom st.a fuel r0 with
              | none => none
              | some tj =>
                match getN st.a tj with
                | none => none
                | some tnd =>
                  let s1 := setKV st.a i tnd.key tnd.val
                  match eraseHelper cmp fuel ⟨s1, st.numElems⟩ (Slot.rg i) tnd.key with
                  | none => none
                  | some (st2, _) =>
                    match rotate st2.a slot with
                    | none => none
                    | some a3 => some (⟨a3, st2.numElems⟩, true)

/-- `RedBlackTree::erase` (line 80). -/
def erase (cmp : K → K → Bool) [DecidableEq K] (st : RState K V) (k : K) :
    Option (RState K V × Bool) :=
  eraseHelper cmp (st.a.nodes.length + 1) st Slot.rt k

/-- Whether the node referenced by an optional index is red (null is black). -/
def isRed (s : Arena K V Bool) (oi : Option Nat) : Bool :=
  match oi with
  | none => false
  | some i =>
    match getN s i with
    | none => false
    | some nd => nd.tag

/-- The number of black nodes on every path from the given subtree to a leaf,
or `none` when two paths disagree (or the walk fails). -/
def bhFrom (s : Arena K V Bool) : Nat → Option Nat → Option Nat
  | _, none => some 0
  | 0, some _ => none
  | fuel+1, some i =>
    match getN s i with
    | none => none
    | some nd =>
      match bhFrom s fuel nd.left, bhFrom s fuel nd.right with
      | some a, some b =>
        if a = b then some (a + (if nd.tag then 0 else 1)) else none
      | _, _ => none

/-- No red node has a red child anywhere in the subtree. -/
def noRedRed (s : Arena K V Bool) : Nat → Option Nat → Bool
  | _, none => true
  | 0, some _ => false
  | fuel+1, some i =>
    match getN s i with
    | none => false
    | some nd =>
      (!(nd.tag && (isRed s nd.left || isRed s nd.right))) &&
        noRedRed s fuel nd.left && noRedRed s fuel nd.right

end RbtModel

/-- The empty red-black tree over `Nat` keys and values. -/
def emptyR : RState Nat Nat := ⟨⟨[], none⟩, 0⟩

/-- Run a sequence of `insert(k, k)` on the `Nat`-instantiated tree, collecting
the `inserted` flags. -/
def runIns : RState Nat Nat → List Nat → Option (RState Nat Nat × List Bool)
  | st, [] => some (st, [])
  | st, k :: ks =>
    match insert cmpN st k k with
    | none => none
    | some (st', _, b) =>
      match runIns st' ks with
      | none => none
      | some (st2, bs) => some (st2, b :: bs)

end Rbt

/-- The key fields of the arena's nodes, in allocation order. -/
def keysOf {K V M : Type} (s : Arena K V M) : List K := s.nodes.map TNode.key

/-- The AVL tree containing the single pair `(1, 1)`. -/
def sC : Arena Nat Nat Int := ⟨[⟨1, 1, none, 0, none, none⟩], some 0⟩

/-- The AVL tree `sC` after `insert(2, 2)`. -/
def sD : Arena Nat Nat Int :=
  ⟨[⟨1, 1, none, 1, none, some 1⟩, ⟨2, 2, some 0, 0, none, none⟩], some 0⟩

/-- The red-black tree containing the single pair `(1, 1)`. -/
def stC : Rbt.RState Nat Nat := ⟨⟨[⟨1, 1, none, false, none, none⟩], some 0⟩, 1⟩

/-- The red-black tree `stC` after `insert(2, 2)`. -/
def stD : Rbt.RState Nat Nat :=
  ⟨⟨[⟨1, 1, none, false, none, some 1⟩, ⟨2, 2, some 0, true, none, none⟩],
    some 0⟩, 2⟩

/-! ## Tree claim theorems -/

/-- C1: on the AvlTree, the insert sequence 10, 5, 15, 3, 7, 2 (natural `<`
comparator) succeeds six times, yet iterating from `begin()` to `end()` visits
only `[2, 3, 5, 7]` — the keys 10 and 15 are never reached, because the final
right rotation leaves the moved middle subtree's parent pointer stale and the
iterator's parent climb then terminates early.  This refutes the claim that
the iteration visits every successfully inserted key exactly once in
increasing order. -/
theorem avl_iteration_loses_keys :
    ((Avl.runIns Avl.emptyA [10, 5, 15, 3, 7, 2]).map
      (fun p => (p.2, traversalKeys p.1))) =
    some ([true, true, true, true, true, true], some [2, 3, 5, 7]) := by
  decide

/-- C2: after the same insert sequence, the node holding key 7 (arena index 4)
has parent field pointing at the key-5 node (index 1), while its true
structural parent is the key-10 node (index 0, whose `left` is index 4); the
key-5 node's children are indices 3 and 0.  `AvlTree::rotateRight` moved the
middle subtree without updating its parent back-reference (and, on other
inputs such as the repository's own RotationCases LR test 30, 10, 20, writes
the rotated subtree into the wrong child slot, a null dereference — see C3's
theorem). -/
theorem avl_rotation_stale_parent :
    (((Avl.runIns Avl.emptyA [10, 5, 15, 3, 7, 2]).bind (fun p => getN p.1 4)).map
      (fun nd => (nd.key, nd.parent)) = some (7, some 1)) ∧
    (((Avl.runIns Avl.emptyA [10, 5, 15, 3, 7, 2]).bind (fun p => getN p.1 0)).map
      (fun nd => (nd.key, nd.left)) = some (10, some 4)) ∧
    (((Avl.runIns Avl.emptyA [10, 5, 15, 3, 7, 2]).bind (fun p => getN p.1 1)).map
      (fun nd => (nd.key, nd.left, nd.right)) = some (5, some 3, some 0)) := by
  refine ⟨by decide, by decide, by decide⟩

/-- C3: the insert sequence 10, 5, 15, 3, 7, 20, 6, 8, 9 completes (all
inserts report success) but leaves a node whose stored height/balance violates
the AVL invariant (`chkBal` rejects the tree: node 10 ends with balance factor
−2).  Moreover the repository's own RotationCases LR test input 30, 10, 20
dereferences a null pointer during the double rotation (`none`). -/
theorem avl_balance_invariant_broken :
    (((Avl.runIns Avl.emptyA [10, 5, 15, 3, 7, 20, 6, 8, 9]).map
      (fun p => (p.2, Avl.chkBal p.1 20 p.1.root))) =
      some ([true, true, true, true, true, true, true, true, true], none)) ∧
    Avl.runIns Avl.emptyA [30, 10, 20] = none := by
  refine ⟨by decide, by decide⟩

/-- C4: on the RedBlackTree, inserting 1, 2, 3 succeeds three times and leaves
the root black with no red-red violation, but the black-node count differs
between root-to-leaf paths (`bhFrom` rejects the tree), refuting the claim
that every path carries the same number of black nodes after every insert. -/
theorem rbt_black_height_broken :
    ((Rbt.runIns Rbt.emptyR [1, 2, 3]).map (fun p =>
      (p.2, Rbt.isRed p.1.a p.1.a.root, Rbt.noRedRed p.1.a 10 p.1.a.root,
        Rbt.bhFrom p.1.a 10 p.1.a.root))) =
    some ([true, true, true], false, true, none) := by
  decide

/-- C6: after the AvlTree inserts 10, 5, 15, 6, 7 (all successful), key 5 is
still present in the tree, yet `insert(5, 999)` reports `inserted = true` and
allocates a sixth node: the corrupted rotation broke the search-tree order, so
the duplicate probe misses the existing key 5 and the tree is mutated instead
of returning the existing element with `inserted = false`. -/
theorem avl_duplicate_insert_mutates :
    ((Avl.runIns Avl.emptyA [10, 5, 15, 6, 7]).map (fun p =>
      (p.2, containsKey p.1 5,
        (Avl.insert cmpN p.1 5 999).map
          (fun q => (q.2.2, q.1.nodes.length, p.1.nodes.length))))) =
    some ([true, true, true, true, true], true, some (true, 6, 5)) := by
  decide

/-- C7: after the AvlTree inserts 10, 5, 15, 3, 7, 20, 6, 8, 9 (all
successful), key 1 is absent, yet `erase(1)` does not return `false` and leave
the tree unchanged: descending the left spine it reaches the node with stored
balance factor −2, fires a rotation whose re-attachment writes the wrong child
slot, and the following rotation dereferences a null pointer (`none` —
undefined behavior in the C++). -/
theorem avl_erase_absent_not_harmless :
    ((Avl.runIns Avl.emptyA [10, 5, 15, 3, 7, 20, 6, 8, 9]).map (fun p =>
      (containsKey p.1 1, Avl.erase cmpN p.1 1))).isSome = true ∧
    ((Avl.runIns Avl.emptyA [10, 5, 15, 3, 7, 20, 6, 8, 9]).map (fun p =>
      (containsKey p.1 1, Avl.erase cmpN p.1 1))) = some (false, none) := by
  refine ⟨by decide, by decide⟩

/-- C9 (counterexample): on the RedBlackTree built by inserting 2, 1, 3, the
root node (arena index 0) stores key 2; erasing key 2 — a node with two
children — keeps that node in the tree (it remains the root) but overwrites
its key field with the in-order successor's key 3: `root->value = tmp->value`
copies the whole pair, so the key of a node that remains in the tree does
change. -/
theorem rbt_erase_two_children_changes_key :
    (((Rbt.runIns Rbt.emptyR [2, 1, 3]).bind (fun p => getN p.1.a 0)).map
      (fun nd => (nd.key, nd.val)) = some (2, 2)) ∧
    ((Rbt.runIns Rbt.emptyR [2, 1, 3]).map (fun p => p.1.a.root) =
      some (some 0)) ∧
    ((Rbt.runIns Rbt.emptyR [2, 1, 3]).bind (fun p => Rbt.erase cmpN p.1 2)).map
      (fun q => q.2) = some true ∧
    ((((Rbt.runIns Rbt.emptyR [2, 1, 3]).bind (fun p => Rbt.erase cmpN p.1 2)).bind
      (fun q => getN q.1.a 0)).map (fun nd => (nd.key, nd.val)) = some (3, 3)) ∧
    (((Rbt.runIns Rbt.emptyR [2, 1, 3]).bind (fun p => Rbt.erase cmpN p.1 2)).map
      (fun q => q.1.a.root) = some (some 0)) := by
  refine ⟨by decide, by decide, by decide, by decide, by decide⟩

end Algos

namespace Algos

/-! ## Heap proofs -/

section HeapLemmas

variable {α : Type}

theorem cmpN_asym : ∀ a b, cmpN a b = true → cmpN b a = false := by
  intro a b h
  simp only [cmpN, decide_eq_true_eq] at h
  simp only [cmpN, decide_eq_false_iff_not]
  omega

theorem cmpN_negTrans :
    ∀ a b c, cmpN a b = false → cmpN b c = false → cmpN a c = false := by
  intro a b c h1 h2
  simp only [cmpN, decide_eq_false_iff_not] at h1 h2
  simp only [cmpN, decide_eq_false_iff_not]
  omega

/-- Transitivity of the strict comparator, derived from asymmetry and
transitivity of the negation. -/
theorem cmp_trans (cmp : α → α → Bool)
    (hasym : ∀ a b, cmp a b = true → cmp b a = false)
    (hneg : ∀ a b c, cmp a b = false → cmp b c = false → cmp a c = false) :
    ∀ a b c, cmp a b = true → cmp b c = true → cmp a c = true := by
  intro a b c hab hbc
  by_contra hac
  have hac' : cmp a c = false := by
    cases h : cmp a c
    · rfl
    · exact absurd h hac
  have hcb : cmp c b = false := hasym b c hbc
  have : cmp a b = false := hneg a c b hac' hcb
  rw [hab] at this
  exact Bool.true_eq_false.mp this

theorem cmp_irrefl (cmp : α → α → Bool)
    (hasym : ∀ a b, cmp a b = true → cmp b a = false) :
    ∀ a, cmp a a = false := by
  intro a
  cases h : cmp a a
  · rfl
  · have := hasym a a h
    rw [h] at this
    exact this

/-- The sift-up loop restores the heap property from the `heapExceptUp`
invariant. -/
theorem siftUpLoop_heapProp (cmp : α → α → Bool)
    (hasym : ∀ a b, cmp a b = true → cmp b a = false)
    (hneg : ∀ a b c, cmp a b = false → cmp b c = false → cmp a c = false)
    (n : Nat) :
    ∀ fuel c f, c < fuel → c < n → heapExceptUp cmp f n c →
      heapProp cmp (siftUpLoop cmp fuel f c) n := by
  intro fuel
  induction fuel with
  | zero => intro c f hc _ _; exact absurd hc (Nat.not_lt_zero c)
  | succ fuel ih =>
    intro c f hcf hcn hinv
    obtain ⟨h1, h2⟩ := hinv
    have hstep : siftUpLoop cmp (fuel + 1) f c =
        if c = 0 then f
        else if cmp (f c) (f ((c - 1) / 2)) then f
        else siftUpLoop cmp fuel (swapAt f ((c - 1) / 2) c) ((c - 1) / 2) := rfl
    by_cases hc0 : c = 0
    · subst hc0
      rw [hstep, if_pos rfl]
      intro i hin hi0
      exact h1 i hin hi0 (by omega)
    · have hpc : (c - 1) / 2 < c := by omega
      cases hcmp : cmp (f c) (f ((c - 1) / 2)) with
      | true =>
        have hres : siftUpLoop cmp (fuel + 1) f c = f := by
          rw [hstep]; simp [hc0, hcmp]
        rw [hres]
        intro i hin hi0
        by_cases hic : i = c
        · subst hic
          exact hasym (f i) (f ((i - 1) / 2)) hcmp
        · exact h1 i hin hi0 hic
      | false =>
        have hres : siftUpLoop cmp (fuel + 1) f c =
            siftUpLoop cmp fuel (swapAt f ((c - 1) / 2) c) ((c - 1) / 2) := by
          rw [hstep]; simp [hc0, hcmp]
        rw [hres]
        set p := (c - 1) / 2 with hpdef
        have hgp : swapAt f p c p = f c := by simp [swapAt]
        have hgc : swapAt f p c c = f p := by
          simp [swapAt]
          intro h; omega
        have hgo : ∀ k, k ≠ p → k ≠ c → swapAt f p c k = f k := by
          intro k hk1 hk2; simp [swapAt, hk1, hk2]
        apply ih p (swapAt f p c) (by omega) (by omega)
        constructor
        · -- heap property everywhere except at the new hole `p`
          intro i hin hi0 hip
          by_cases hic : i = c
          · subst hic
            rw [show (i - 1) / 2 = p from rfl, hgp, hgc]
            exact hcmp
          · by_cases hq : (i - 1) / 2 = p
            · -- sibling of `c` under `p`
              rw [hq, hgp, hgo i hip hic]
              exact hneg (f c) (f p) (f i) hcmp (hq ▸ h1 i hin hi0 hic)
            · by_cases hqc : (i - 1) / 2 = c
              · -- a child of `c`: the grandparent `p` dominates it
                have hci : c < i := by omega
                rw [hqc, hgc, hgo i (by omega) (by omega)]
                exact h2 (by omega) i hin hqc
              · rw [hgo ((i - 1) / 2) hq hqc, hgo i hip hic]
                exact h1 i hin hi0 hic
        · -- the parent of the new hole `p` dominates `p`'s children
          intro hp0 j hjn hj
          have hrp : (p - 1) / 2 < p := by omega
          have hjp : p < j := by omega
          rw [hgo ((p - 1) / 2) (by omega) (by omega)]
          by_cases hjc : j = c
          · subst hjc
            rw [hgc]
            exact h1 p (by omega) hp0 (by omega)
          · rw [hgo j (by omega) hjc]
            exact hneg (f ((p - 1) / 2)) (f p) (f j)
              (h1 p (by omega) hp0 (by omega)) (hj ▸ h1 j hjn (by omega) hjc)

/-- The sift-down loop restores the heap property from the `heapExceptDown`
invariant. -/
theorem siftDownLoop_heapProp (cmp : α → α → Bool)
    (hasym : ∀ a b, cmp a b = true → cmp b a = false)
    (hneg : ∀ a b c, cmp a b = false → cmp b c = false → cmp a c = false)
    (m : Nat) :
    ∀ fuel p c f, m ≤ fuel + c → c = 2 * p + 1 → heapExceptDown cmp f m p →
      heapProp cmp (siftDownLoop cmp fuel f m p c) m := by
  intro fuel
  induction fuel with
  | zero =>
    intro p c f hf hc hinv
    obtain ⟨h1, _⟩ := hinv
    show heapProp cmp f m
    intro i hin hi0
    by_cases hq : (i - 1) / 2 = p
    · exfalso; omega
    · exact h1 i hin hi0 hq
  | succ fuel ih =>
    intro p c f hf hc hinv
    obtain ⟨h1, h2⟩ := hinv
    have hstep : siftDownLoop cmp (fuel + 1) f m p c =
        if c < m then
          if cmp (f (pickChild cmp f m c)) (f p) then f
          else siftDownLoop cmp fuel (swapAt f p (pickChild cmp f m c)) m
            (pickChild cmp f m c) (2 * pickChild cmp f m c + 1)
        else f := rfl
    by_cases hcm : c < m
    · set cc := pickChild cmp f m c with hccdef
      have hcc : (cc = c + 1 ∧ c + 1 < m ∧ cmp (f c) (f (c + 1)) = true) ∨
          (cc = c ∧ (c + 1 < m → cmp (f c) (f (c + 1)) = false)) := by
        rw [hccdef]; unfold pickChild
        by_cases hlt : c + 1 < m
        · cases hcm2 : cmp (f c) (f (c + 1)) with
          | true => left; simp [hlt, hcm2]
          | false => right; simp [hlt, hcm2]
        · right
          constructor
          · simp [hlt]
          · intro h; exact absurd h hlt
      have hclecc : c ≤ cc := by rcases hcc with ⟨h, _, _⟩ | ⟨h, _⟩ <;> omega
      have hccm : cc < m := by rcases hcc with ⟨h, hl, _⟩ | ⟨h, _⟩ <;> omega
      have hccq : (cc - 1) / 2 = p := by
        rcases hcc with ⟨h, _, _⟩ | ⟨h, _⟩ <;> omega
      have hpcc : p < cc := by omega
      cases hbr : cmp (f cc) (f p) with
      | true =>
        rw [hstep, if_pos hcm, hbr, if_pos rfl]
        intro i hin hi0
        by_cases hq : (i - 1) / 2 = p
        · have hior : i = c ∨ i = c + 1 := by omega
          rw [hq]
          rcases hcc with ⟨hcceq, _, hch⟩ | ⟨hcceq, hch⟩
          · rcases hior with rfl | rfl
            · exact hasym _ _
                (cmp_trans cmp hasym hneg _ _ _ hch (hcceq ▸ hbr))
            · exact hasym _ _ (hcceq ▸ hbr)
          · rcases hior with rfl | rfl
            · exact hasym _ _ (hcceq ▸ hbr)
            · cases hpc2 : cmp (f p) (f (c + 1)) with
              | false => rfl
              | true =>
                exfalso
                have htr : cmp (f c) (f (c + 1)) = true :=
                  cmp_trans cmp hasym hneg _ _ _ (hcceq ▸ hbr) hpc2
                have hcf : cmp (f c) (f (c + 1)) = false := hch hin
                simp [hcf] at htr
        · exact h1 i hin hi0 hq
      | false =>
        rw [hstep, if_pos hcm, hbr]
        rw [show (if (false = true) then f
            else siftDownLoop cmp fuel (swapAt f p cc) m cc (2 * cc + 1)) =
            siftDownLoop cmp fuel (swapAt f p cc) m cc (2 * cc + 1) from rfl]
        have hgp : swapAt f p cc p = f cc := by simp [swapAt]
        have hgcc : swapAt f p cc cc = f p := by
          simp [swapAt]
          intro h; omega
        have hgo : ∀ k, k ≠ p → k ≠ cc → swapAt f p cc k = f k := by
          intro k hk1 hk2; simp [swapAt, hk1, hk2]
        apply ih cc (2 * cc + 1) _ (by omega) rfl
        constructor
        · intro i hin hi0 hq
          by_cases hicc : i = cc
          · subst hicc
            rw [hccq, hgp, hgcc]
            exact hbr
          · by_cases hqp : (i - 1) / 2 = p
            · have hior : i = c ∨ i = c + 1 := by omega
              rw [hqp, hgp, hgo i (by omega) hicc]
              rcases hcc with ⟨hcceq, _, hch⟩ | ⟨hcceq, hch⟩
              · have hieq : i = c := by omega
                subst hieq
                rw [hcceq]
                exact hasym _ _ hch
              · have hieq : i = c + 1 := by omega
                subst hieq
                rw [hcceq]
                exact hch (by omega)
            · by_cases hip : i = p
              · subst hip
                rw [hgo ((i - 1) / 2) (by omega) (by omega), hgp]
                exact h2 (by omega) cc hccm hccq
              · rw [hgo ((i - 1) / 2) hqp hq, hgo i hip hicc]
                exact h1 i hin hi0 hqp
        · intro h0cc j hjm hjq
          have hjcc : cc < j := by omega
          rw [hccq, hgp, hgo j (by omega) (by omega), ← hjq]
          exact h1 j hjm (by omega) (by omega)
    · rw [hstep, if_neg hcm]
      intro i hin hi0
      by_cases hq : (i - 1) / 2 = p
      · exfalso; omega
      · exact h1 i hin hi0 hq

/-- `push_heap` after appending one element to a valid heap yields a valid
heap. -/
theorem push_heap_heapProp (cmp : α → α → Bool)
    (hasym : ∀ a b, cmp a b = true → cmp b a = false)
    (hneg : ∀ a b c, cmp a b = false → cmp b c = false → cmp a c = false)
    (f : Nat → α) (n : Nat) (v : α) (hp : heapProp cmp f n) :
    heapProp cmp (push_heap cmp (setAt f n v) (n + 1)) (n + 1) := by
  rw [push_heap, if_neg (Nat.succ_ne_zero n)]
  apply siftUpLoop_heapProp cmp hasym hneg (n + 1) (n + 1) (n + 1 - 1) _
    (by omega) (by omega)
  constructor
  · intro i hin hi0 hic
    have hi : i < n := by omega
    have hq : (i - 1) / 2 < n := by omega
    rw [setAt, setAt]
    simp only [if_neg (by omega : ¬ i = n), if_neg (by omega : ¬ (i - 1) / 2 = n)]
    exact hp i hi hi0
  · intro h0 j hjn hjq
    exfalso
    omega

/-- `pop_heap` on a valid heap of `n` elements leaves a valid heap on the first
`n - 1` positions. -/
theorem pop_heap_heapProp (cmp : α → α → Bool)
    (hasym : ∀ a b, cmp a b = true → cmp b a = false)
    (hneg : ∀ a b c, cmp a b = false → cmp b c = false → cmp a c = false)
    (f : Nat → α) (n : Nat) (hp : heapProp cmp f n) :
    heapProp cmp (pop_heap cmp f n) (n - 1) := by
  by_cases hn : n = 0
  · subst hn
    intro i hin hi0
    omega
  · rw [pop_heap, if_neg hn]
    apply siftDownLoop_heapProp cmp hasym hneg (n - 1) n 0 1 _ (by omega) rfl
    constructor
    · intro i hin hi0 hq
      have hqi : (i - 1) / 2 < i := by omega
      rw [swapAt, swapAt]
      simp only [if_neg (by omega : ¬ i = 0), if_neg (by omega : ¬ i = n - 1),
        if_neg (by omega : ¬ (i - 1) / 2 = 0), if_neg (by omega : ¬ (i - 1) / 2 = n - 1)]
      exact hp i (by omega) hi0
    · intro h0
      exfalso
      omega

/-- In a valid heap the root dominates every element. -/
theorem heapProp_root_dominates (cmp : α → α → Bool)
    (hasym : ∀ a b, cmp a b = true → cmp b a = false)
    (hneg : ∀ a b c, cmp a b = false → cmp b c = false → cmp a c = false)
    (f : Nat → α) (n : Nat) (hp : heapProp cmp f n) :
    ∀ i, i < n → cmp (f 0) (f i) = false := by
  intro i
  induction i using Nat.strong_induction_on with
  | _ i ih =>
    intro hin
    by_cases hi0 : i = 0
    · subst hi0
      exact cmp_irrefl cmp hasym (f 0)
    · have hq : (i - 1) / 2 < i := by omega
      exact hneg _ _ _ (ih ((i - 1) / 2) hq (by omega)) (hp i hin (by omega))

/-- The index transposition is an involution. -/
theorem swapN_swapN (i j k : Nat) : swapN i j (swapN i j k) = k := by
  unfold swapN
  by_cases h1 : k = i
  · by_cases h2 : j = i <;> simp [h1, h2]
  · by_cases h2 : k = j
    · simp [h1, h2]
    · simp [h1, h2]

theorem swapN_inj (i j : Nat) : Function.Injective (swapN i j) := by
  intro a b h
  have := congrArg (swapN i j) h
  rwa [swapN_swapN, swapN_swapN] at this

theorem swapN_lt (i j m : Nat) (hi : i < m) (hj : j < m) :
    ∀ k, k < m → swapN i j k < m := by
  intro k hk
  unfold swapN
  split
  · exact hj
  · split
    · exact hi
    · exact hk

theorem map_swapN_range_perm (i j m : Nat) (hi : i < m) (hj : j < m) :
    ((List.range m).map (swapN i j)).Perm (List.range m) := by
  rw [List.perm_ext_iff_of_nodup (List.Nodup.map (swapN_inj i j) (List.nodup_range m))
    (List.nodup_range m)]
  intro a
  simp only [List.mem_map, List.mem_range]
  constructor
  · rintro ⟨b, hb, rfl⟩
    exact swapN_lt i j m hi hj b hb
  · intro ha
    exact ⟨swapN i j a, swapN_lt i j m hi hj a ha, swapN_swapN i j a⟩

/-- Transposing two in-range positions permutes the range contents. -/
theorem listOf_swapAt_perm (f : Nat → α) (i j m : Nat) (hi : i < m) (hj : j < m) :
    (listOf (swapAt f i j) m).Perm (listOf f m) := by
  have he : listOf (swapAt f i j) m = ((List.range m).map (swapN i j)).map f := by
    rw [List.map_map]
    apply List.map_congr_left
    intro k _
    simp only [Function.comp, swapAt, swapN]
    split
    · rfl
    · split <;> rfl
  rw [he]
  exact (map_swapN_range_perm i j m hi hj).map f

/-- The sift-up loop permutes the range contents. -/
theorem siftUpLoop_perm (cmp : α → α → Bool) (m : Nat) :
    ∀ fuel c f, c < m → (listOf (siftUpLoop cmp fuel f c) m).Perm (listOf f m) := by
  intro fuel
  induction fuel with
  | zero => intro c f _; exact List.Perm.refl _
  | succ fuel ih =>
    intro c f hcm
    have hstep : siftUpLoop cmp (fuel + 1) f c =
        if c = 0 then f
        else if cmp (f c) (f ((c - 1) / 2)) then f
        else siftUpLoop cmp fuel (swapAt f ((c - 1) / 2) c) ((c - 1) / 2) := rfl
    by_cases hc0 : c = 0
    · rw [hstep, if_pos hc0]
    · cases hcmp : cmp (f c) (f ((c - 1) / 2)) with
      | true =>
        rw [hstep]; simp [hc0, hcmp]
      | false =>
        rw [hstep]
        simp only [hc0, hcmp, if_neg, ite_false, Bool.false_eq_true]
        refine (ih ((c - 1) / 2) _ (by omega)).trans ?_
        exact listOf_swapAt_perm f ((c - 1) / 2) c m (by omega) hcm

/-- The sift-down loop permutes the range contents. -/
theorem siftDownLoop_perm (cmp : α → α → Bool) (m : Nat) :
    ∀ fuel p c f, p < m →
      (listOf (siftDownLoop cmp fuel f m p c) m).Perm (listOf f m) := by
  intro fuel
  induction fuel with
  | zero => intro p c f _; exact List.Perm.refl _
  | succ fuel ih =>
    intro p c f hpm
    have hstep : siftDownLoop cmp (fuel + 1) f m p c =
        if c < m then
          if cmp (f (pickChild cmp f m c)) (f p) then f
          else siftDownLoop cmp fuel (swapAt f p (pickChild cmp f m c)) m
            (pickChild cmp f m c) (2 * pickChild cmp f m c + 1)
        else f := rfl
    by_cases hcm : c < m
    · have hccm : pickChild cmp f m c < m := by
        unfold pickChild
        by_cases hlt : c + 1 < m
        · cases hx : cmp (f c) (f (c + 1)) <;> simp [hlt, hx] <;> omega
        · simp [hlt]; omega
      cases hbr : cmp (f (pickChild cmp f m c)) (f p) with
      | true => rw [hstep]; simp [hcm, hbr]
      | false =>
        rw [hstep]
        simp only [if_pos hcm, hbr, Bool.false_eq_true, ite_false]
        refine (ih _ _ _ hccm).trans ?_
        exact listOf_swapAt_perm f p (pickChild cmp f m c) m hpm hccm
    · rw [hstep, if_neg hcm]

theorem listOf_congr (f g : Nat → α) (n : Nat) (h : ∀ k, k < n → f k = g k) :
    listOf f n = listOf g n := by
  unfold listOf
  apply List.map_congr_left
  intro k hk
  exact h k (List.mem_range.mp hk)

theorem listOf_succ (f : Nat → α) (n : Nat) :
    listOf f (n + 1) = listOf f n ++ [f n] := by
  simp [listOf, List.range_succ]

/-- `Heap::push` adds exactly the pushed element to the contents. -/
theorem push_contents_perm (cmp : α → α → Bool) (h : Heap α) (v : α) :
    (listOf (Heap.push cmp h v).f (Heap.push cmp h v).n).Perm
      (v :: listOf h.f h.n) := by
  show (listOf (push_heap cmp (setAt h.f h.n v) (h.n + 1)) (h.n + 1)).Perm _
  rw [push_heap, if_neg (Nat.succ_ne_zero h.n)]
  refine (siftUpLoop_perm cmp (h.n + 1) (h.n + 1) (h.n + 1 - 1) _ (by omega)).trans ?_
  have he : listOf (setAt h.f h.n v) (h.n + 1) = listOf h.f h.n ++ [v] := by
    rw [listOf_succ]
    have h1 : listOf (setAt h.f h.n v) h.n = listOf h.f h.n :=
      listOf_congr _ _ _ (fun k hk => by simp [setAt]; intro he; omega)
    have h2 : setAt h.f h.n v h.n = v := by simp [setAt]
    rw [h1, h2]
  rw [he]
  exact List.perm_append_singleton v (listOf h.f h.n)

/-- `pop_heap` moves the root out past the end of the shrunk range and permutes
the rest. -/
theorem pop_contents_perm (cmp : α → α → Bool) (f : Nat → α) (n : Nat)
    (hn : 0 < n) :
    (listOf f n).Perm (f 0 :: listOf (pop_heap cmp f n) (n - 1)) := by
  rw [pop_heap, if_neg (by omega : ¬ n = 0)]
  by_cases h1 : n = 1
  · subst h1
    simp [listOf, List.range_succ]
  · have hm : 0 < n - 1 := by omega
    have hperm := siftDownLoop_perm cmp (n - 1) n 0 1 (swapAt f 0 (n - 1)) hm
    have hswap := listOf_swapAt_perm f 0 (n - 1) n hn (by omega)
    have hsplit : listOf (swapAt f 0 (n - 1)) n =
        listOf (swapAt f 0 (n - 1)) (n - 1) ++ [f 0] := by
      have := listOf_succ (swapAt f 0 (n - 1)) (n - 1)
      rw [show n - 1 + 1 = n from by omega] at this
      rw [this]
      have : swapAt f 0 (n - 1) (n - 1) = f 0 := by
        simp [swapAt]
        intro h; omega
      rw [this]
    refine (hswap.symm).trans ?_
    rw [hsplit]
    refine (List.perm_append_singleton (f 0) _).trans ?_
    exact (hperm.symm).cons (f 0)

/-- Pushing a list of elements onto a valid heap keeps it valid, grows the size
accordingly and adds exactly the pushed contents. -/
theorem pushAll_spec (cmp : α → α → Bool)
    (hasym : ∀ a b, cmp a b = true → cmp b a = false)
    (hneg : ∀ a b c, cmp a b = false → cmp b c = false → cmp a c = false) :
    ∀ (l : List α) (h : Heap α), heapProp cmp h.f h.n →
      heapProp cmp (pushAll cmp l h).f (pushAll cmp l h).n ∧
      (pushAll cmp l h).n = h.n + l.length ∧
      (listOf (pushAll cmp l h).f (pushAll cmp l h).n).Perm
        (l ++ listOf h.f h.n) := by
  intro l
  induction l with
  | nil =>
    intro h hp
    refine ⟨hp, rfl, ?_⟩
    show (listOf h.f h.n).Perm ([] ++ listOf h.f h.n)
    simp
  | cons a l ih =>
    intro h hp
    have hpush : pushAll cmp (a :: l) h = pushAll cmp l (Heap.push cmp h a) := rfl
    rw [hpush]
    have hp' : heapProp cmp (Heap.push cmp h a).f (Heap.push cmp h a).n :=
      push_heap_heapProp cmp hasym hneg h.f h.n a hp
    obtain ⟨q1, q2, q3⟩ := ih (Heap.push cmp h a) hp'
    refine ⟨q1, ?_, ?_⟩
    · rw [q2]
      show h.n + 1 + l.length = h.n + (l.length + 1)
      omega
    · refine q3.trans ?_
      exact (List.Perm.append_left l (push_contents_perm cmp h a)).trans
        List.perm_middle

/-- Draining a valid heap yields its contents in comparator-descending order. -/
theorem drain_spec (cmp : α → α → Bool)
    (hasym : ∀ a b, cmp a b = true → cmp b a = false)
    (hneg : ∀ a b c, cmp a b = false → cmp b c = false → cmp a c = false) :
    ∀ (k : Nat) (h : Heap α), h.n = k → heapProp cmp h.f h.n →
      (drain cmp k h).Perm (listOf h.f h.n) ∧
      List.Chain' (fun a b => cmp a b = false) (drain cmp k h) := by
  intro k
  induction k with
  | zero =>
    intro h hk _
    refine ⟨?_, List.chain'_nil⟩
    rw [hk]
    simp [drain, listOf]
  | succ k ih =>
    intro h hk hp
    have hne : ¬ h.n = 0 := by omega
    have hd : drain cmp (k + 1) h = h.f 0 :: drain cmp k (Heap.popQ cmp h) := by
      simp [drain, hne]
    have hpn : (Heap.popQ cmp h).n = k := by
      show h.n - 1 = k
      omega
    have hpp : heapProp cmp (Heap.popQ cmp h).f (Heap.popQ cmp h).n :=
      pop_heap_heapProp cmp hasym hneg h.f h.n hp
    obtain ⟨q1, q2⟩ := ih (Heap.popQ cmp h) hpn hpp
    have hpop : (listOf h.f h.n).Perm
        (h.f 0 :: listOf (Heap.popQ cmp h).f (Heap.popQ cmp h).n) :=
      pop_contents_perm cmp h.f h.n (by omega)
    constructor
    · rw [hd]
      exact (q1.cons (h.f 0)).trans hpop.symm
    · rw [hd, List.chain'_cons']
      refine ⟨?_, q2⟩
      intro y hy
      have hymem : y ∈ drain cmp k (Heap.popQ cmp h) := List.mem_of_mem_head? hy
      have hy2 : y ∈ listOf (Heap.popQ cmp h).f (Heap.popQ cmp h).n :=
        q1.mem_iff.mp hymem
      have hy3 : y ∈ listOf h.f h.n :=
        hpop.mem_iff.mpr (List.mem_cons_of_mem _ hy2)
      obtain ⟨i, hi, rfl⟩ : ∃ i, i < h.n ∧ h.f i = y := by
        simpa [listOf, List.mem_map, List.mem_range] using hy3
      exact heapProp_root_dominates cmp hasym hneg h.f h.n hp i hi

end HeapLemmas

section HeapClaims

variable {α : Type}

/-- C5: for every valid heap state of the Heap adapter, `top()` returns the
comparator-extremal element; after every `pop()` the remaining elements still
satisfy the heap property; and pushing any `n` elements then popping `n` times
yields those `n` elements in fully sorted (comparator-descending) order.  The
comparator is any strict weak order, given by its asymmetry and by the
transitivity of its negation. -/
theorem heap_adapter_correct (cmp : α → α → Bool)
    (hasym : ∀ a b, cmp a b = true → cmp b a = false)
    (hneg : ∀ a b c, cmp a b = false → cmp b c = false → cmp a c = false) :
    (∀ (h : Heap α) (t : α), heapProp cmp h.f h.n → Heap.top h = some t →
      ∀ i, i < h.n → cmp t (h.f i) = false) ∧
    (∀ h : Heap α, heapProp cmp h.f h.n →
      heapProp cmp (Heap.popQ cmp h).f (Heap.popQ cmp h).n) ∧
    (∀ (l : List α) (f0 : Nat → α),
      (drain cmp l.length (pushAll cmp l ⟨0, f0⟩)).Perm l ∧
      List.Chain' (fun a b => cmp a b = false)
        (drain cmp l.length (pushAll cmp l ⟨0, f0⟩))) := by
  refine ⟨?_, ?_, ?_⟩
  · intro h t hp ht i hi
    have hne : ¬ h.n = 0 := by
      intro h0
      rw [Heap.top, if_pos h0] at ht
      exact Option.noConfusion ht
    have hteq : t = h.f 0 := by
      rw [Heap.top, if_neg hne] at ht
      exact (Option.some.injEq _ _ ▸ ht).symm
    rw [hteq]
    exact heapProp_root_dominates cmp hasym hneg h.f h.n hp i hi
  · intro h hp
    exact pop_heap_heapProp cmp hasym hneg h.f h.n hp
  · intro l f0
    have hp0 : heapProp cmp (f0 : Nat → α) 0 := by
      intro i hi _
      omega
    obtain ⟨q1, q2, q3⟩ := pushAll_spec cmp hasym hneg l ⟨0, f0⟩ hp0
    have hk : (pushAll cmp l ⟨0, f0⟩).n = l.length := by
      rw [q2]
      show 0 + l.length = l.length
      omega
    obtain ⟨d1, d2⟩ := drain_spec cmp hasym hneg l.length (pushAll cmp l ⟨0, f0⟩)
      hk q1
    refine ⟨?_, d2⟩
    refine d1.trans ?_
    refine q3.trans ?_
    show (l ++ listOf f0 0).Perm l
    simp [listOf]

/-- Witness for C5 at concrete inputs: the heap `[3,1,2]` has `top = 3` which
dominates position 2, and draining the heap built from `[1,3,2]` yields a
permutation of it in descending order. -/
theorem heap_adapter_correct_witness :
    (heapProp cmpN fHeap3 3 ∧ Heap.top (⟨3, fHeap3⟩ : Heap Nat) = some 3 ∧
      cmpN 3 (fHeap3 2) = false) ∧
    ((drain cmpN 3 (pushAll cmpN [1, 3, 2] ⟨0, fun _ => 0⟩)).Perm [1, 3, 2] ∧
      List.Chain' (fun a b => cmpN a b = false)
        (drain cmpN 3 (pushAll cmpN [1, 3, 2] ⟨0, fun _ => 0⟩))) := by
  refine ⟨⟨by unfold heapProp; decide, by decide, ?_⟩, ?_⟩
  · exact (heap_adapter_correct cmpN cmpN_asym cmpN_negTrans).1
      ⟨3, fHeap3⟩ 3 (by unfold heapProp; decide) (by decide) 2 (by decide)
  · exact (heap_adapter_correct cmpN cmpN_asym cmpN_negTrans).2.2
      [1, 3, 2] (fun _ => 0)

/-- C8 (counterexample): `push_heap` does swap a comparator-equivalent parent
and child although the heap invariant already holds at that position — the two
equivalent but distinct pairs exchange places. -/
theorem push_heap_swaps_equivalent_counterexample :
    cmpPair (fPair 0) (fPair 1) = false ∧
    fPair 0 = (5, 0) ∧
    push_heap cmpPair fPair 2 0 = (5, 1) ∧
    push_heap cmpPair fPair 2 1 = (5, 0) := by
  refine ⟨by decide, by decide, by decide, by decide⟩

/-- C8 (amended): `push_heap` swaps the last element with its parent while the
comparator does not place the child strictly below the parent — so
comparator-equivalent parent and child are swapped — and terminates at the root
or at the first position where the child is strictly below its parent; given a
range that is a valid heap except possibly at its last position, the result is
a valid heap. -/
theorem push_heap_amended (cmp : α → α → Bool)
    (hasym : ∀ a b, cmp a b = true → cmp b a = false)
    (hneg : ∀ a b c, cmp a b = false → cmp b c = false → cmp a c = false) :
    (∀ (f : Nat → α) (n : Nat), 2 ≤ n →
      cmp (f (n - 1)) (f ((n - 2) / 2)) = true → push_heap cmp f n = f) ∧
    (∀ (f : Nat → α) (n : Nat), 2 ≤ n →
      cmp (f (n - 1)) (f ((n - 2) / 2)) = false →
      push_heap cmp f n =
        siftUpLoop cmp (n - 1) (swapAt f ((n - 2) / 2) (n - 1)) ((n - 2) / 2)) ∧
    (∀ (f : Nat → α) (n : Nat) (v : α), heapProp cmp f n →
      heapProp cmp (push_heap cmp (setAt f n v) (n + 1)) (n + 1)) := by
  refine ⟨?_, ?_, ?_⟩
  · intro f n hn hcmp
    obtain ⟨k, rfl⟩ : ∃ k, n = k + 2 := ⟨n - 2, by omega⟩
    show siftUpLoop cmp (k + 2) f (k + 1) = f
    have hstep : siftUpLoop cmp (k + 2) f (k + 1) =
        if k + 1 = 0 then f
        else if cmp (f (k + 1)) (f ((k + 1 - 1) / 2)) then f
        else siftUpLoop cmp (k + 1) (swapAt f ((k + 1 - 1) / 2) (k + 1))
          ((k + 1 - 1) / 2) := rfl
    have hcmp' : cmp (f (k + 1)) (f ((k + 1 - 1) / 2)) = true := hcmp
    rw [hstep, if_neg (Nat.succ_ne_zero k), hcmp', if_pos rfl]
  · intro f n hn hcmp
    obtain ⟨k, rfl⟩ : ∃ k, n = k + 2 := ⟨n - 2, by omega⟩
    show siftUpLoop cmp (k + 2) f (k + 1) = _
    have hstep : siftUpLoop cmp (k + 2) f (k + 1) =
        if k + 1 = 0 then f
        else if cmp (f (k + 1)) (f ((k + 1 - 1) / 2)) then f
        else siftUpLoop cmp (k + 1) (swapAt f ((k + 1 - 1) / 2) (k + 1))
          ((k + 1 - 1) / 2) := rfl
    have hcmp' : cmp (f (k + 1)) (f ((k + 1 - 1) / 2)) = false := hcmp
    rw [hstep, if_neg (Nat.succ_ne_zero k), hcmp']
    rfl
  · intro f n v hp
    exact push_heap_heapProp cmp hasym hneg f n v hp

/-- Witness for C8 (amended) at concrete inputs: on `[5,3]` the child `3` is
strictly below its parent, so `push_heap` leaves the range unchanged; and
appending `9` to the singleton heap `[5]` re-heapifies to a valid 2-element
heap. -/
theorem push_heap_amended_witness :
    (cmpN (fDown 1) (fDown 0) = true ∧ push_heap cmpN fDown 2 = fDown) ∧
    heapProp cmpN (push_heap cmpN (setAt fDown 1 9) 2) 2 := by
  refine ⟨⟨by decide, ?_⟩, ?_⟩
  · exact (push_heap_amended cmpN cmpN_asym cmpN_negTrans).1 fDown 2
      (by decide) (by decide)
  · have h1 : heapProp cmpN fDown 1 := by unfold heapProp; decide
    exact (push_heap_amended cmpN cmpN_asym cmpN_negTrans).2.2 fDown 1 9 h1

/-- C10: the free heap algorithms are total no-ops on an empty range, and
`pop_heap` on a single-element range leaves that element's value in place,
while the Heap adapter's `top()` on an empty container has no value to return
(a precondition violation, modelled as `none`). -/
theorem heap_algorithms_degenerate_ranges (cmp : α → α → Bool) (f : Nat → α) :
    push_heap cmp f 0 = f ∧ pop_heap cmp f 0 = f ∧ pop_heap cmp f 1 = f ∧
    Heap.top (⟨0, f⟩ : Heap α) = none := by
  refine ⟨rfl, rfl, ?_, rfl⟩
  funext k
  show siftDownLoop cmp 1 (swapAt f 0 0) 0 0 1 k = f k
  show swapAt f 0 0 k = f k
  by_cases hk : k = 0 <;> simp [swapAt, hk]

end HeapClaims

end Algos

namespace Algos

/-! ## Key-immutability lemmas (claim C9, amended part) -/

section KeyFrame

variable {K V M : Type}

theorem modList_map_key (g : TNode K V M → TNode K V M)
    (hg : ∀ nd, (g nd).key = nd.key) :
    ∀ (l : List (TNode K V M)) (i : Nat),
      (modList l i g).map TNode.key = l.map TNode.key := by
  intro l
  induction l with
  | nil => intro i; rfl
  | cons b bs ih =>
    intro i
    cases i with
    | zero => simp [modList, hg b]
    | succ n => simp [modList, ih n]

theorem keysOf_modN (s : Arena K V M) (i : Nat) (g : TNode K V M → TNode K V M)
    (hg : ∀ nd, (g nd).key = nd.key) : keysOf (modN s i g) = keysOf s := by
  show (modList s.nodes i g).map TNode.key = s.nodes.map TNode.key
  exact modList_map_key g hg s.nodes i

theorem keysOf_setLeft (s : Arena K V M) (i : Nat) (o : Option Nat) :
    keysOf (setLeft s i o) = keysOf s :=
  keysOf_modN s i _ (fun _ => rfl)

theorem keysOf_setRight (s : Arena K V M) (i : Nat) (o : Option Nat) :
    keysOf (setRight s i o) = keysOf s :=
  keysOf_modN s i _ (fun _ => rfl)

theorem keysOf_setParent (s : Arena K V M) (i : Nat) (o : Option Nat) :
    keysOf (setParent s i o) = keysOf s :=
  keysOf_modN s i _ (fun _ => rfl)

theorem keysOf_setTag (s : Arena K V M) (i : Nat) (t : M) :
    keysOf (setTag s i t) = keysOf s :=
  keysOf_modN s i _ (fun _ => rfl)

theorem keysOf_setSlot (s : Arena K V M) (sl : Slot) (o : Option Nat) :
    keysOf (setSlot s sl o) = keysOf s := by
  cases sl with
  | rt => rfl
  | lf i => exact keysOf_setLeft s i o
  | rg i => exact keysOf_setRight s i o

end KeyFrame

section KeyFrameAvl

variable {K V : Type}

theorem keysOf_updateHeight (s : Arena K V Int) (i : Nat) :
    keysOf (Avl.updateHeight s i) = keysOf s := by
  unfold Avl.updateHeight
  cases hx : getN s i with
  | none => rfl
  | some nd => exact keysOf_setTag s i _

theorem avlRotateRight_keys (s s' : Arena K V Int) (slot : Slot)
    (h : Avl.rotateRight s slot = some s') : keysOf s' = keysOf s := by
  unfold Avl.rotateRight at h
  repeat' first
    | split at h
    | simp only [] at h
  all_goals first
    | exact Option.noConfusion h
    | (injection h with h'
       subst h'
       simp [keysOf_setLeft, keysOf_setRight, keysOf_setParent,
         keysOf_setSlot, keysOf_updateHeight])

theorem avlRotateLeft_keys (s s' : Arena K V Int) (slot : Slot)
    (h : Avl.rotateLeft s slot = some s') : keysOf s' = keysOf s := by
  unfold Avl.rotateLeft at h
  repeat' first
    | split at h
    | simp only [] at h
  all_goals first
    | exact Option.noConfusion h
    | (injection h with h'
       subst h'
       simp [keysOf_setLeft, keysOf_setRight, keysOf_setParent,
         keysOf_setSlot, keysOf_updateHeight])

theorem avlRotate_keys (s s' : Arena K V Int) (slot : Slot)
    (h : Avl.rotate s slot = some s') : keysOf s' = keysOf s := by
  unfold Avl.rotate at h
  by_cases h1 : Avl.getBalanceFactor s (getSlot s slot) > 1
  · rw [if_pos h1] at h
    cases h2 : getSlot s slot with
    | none =>
      simp only [h2] at h
      exact Option.noConfusion h
    | some i =>
      simp only [h2] at h
      cases h4 : (if Avl.getBalanceFactor s ((getN s i).bind (fun nd => nd.left)) < 0 then
          Avl.rotateLeft s (Slot.lf i) else some s) with
      | none =>
        simp only [h4] at h
        exact Option.noConfusion h
      | some s2 =>
        simp only [h4] at h
        have hk2 : keysOf s2 = keysOf s := by
          by_cases h3 : Avl.getBalanceFactor s ((getN s i).bind (fun nd => nd.left)) < 0
          · rw [if_pos h3] at h4
            exact avlRotateLeft_keys _ _ _ h4
          · rw [if_neg h3] at h4
            injection h4 with h5
            rw [← h5]
        exact (avlRotateRight_keys _ _ _ h).trans hk2
  · rw [if_neg h1] at h
    by_cases h1' : Avl.getBalanceFactor s (getSlot s slot) < -1
    · rw [if_pos h1'] at h
      cases h2 : getSlot s slot with
      | none =>
        simp only [h2] at h
        exact Option.noConfusion h
      | some i =>
        simp only [h2] at h
        cases h4 : (if Avl.getBalanceFactor s ((getN s i).bind (fun nd => nd.right)) > 0 then
            Avl.rotateRight s (Slot.rg i) else some s) with
        | none =>
          simp only [h4] at h
          exact Option.noConfusion h
        | some s2 =>
          simp only [h4] at h
          have hk2 : keysOf s2 = keysOf s := by
            by_cases h3 : Avl.getBalanceFactor s ((getN s i).bind (fun nd => nd.right)) > 0
            · rw [if_pos h3] at h4
              exact avlRotateRight_keys _ _ _ h4
            · rw [if_neg h3] at h4
              injection h4 with h5
              rw [← h5]
          exact (avlRotateLeft_keys _ _ _ h).trans hk2
    · rw [if_neg h1'] at h
      injection h with h'
      rw [← h']

theorem avlInsertHelper_keysGrow (cmp : K → K → Bool) :
    ∀ (fuel : Nat) (s : Arena K V Int) (slot : Slot) (par : Option Nat)
      (k : K) (v : V) (s' : Arena K V Int) (r : Nat) (b : Bool),
      Avl.insertHelper cmp fuel s slot par k v = some (s', r, b) →
      ∃ t, keysOf s' = keysOf s ++ t := by
  intro fuel
  induction fuel with
  | zero =>
    intro s slot par k v s' r b h
    exact Option.noConfusion h
  | succ fuel ih =>
    intro s slot par k v s' r b h
    unfold Avl.insertHelper at h
    cases h2 : getSlot s slot with
    | none =>
      simp only [h2] at h
      injection h with h'
      have hs : s' = setSlot
          { s with nodes := s.nodes ++ [(⟨k, v, par, 0, none, none⟩ : TNode K V Int)] }
          slot (some s.nodes.length) := (congrArg Prod.fst h').symm
      refine ⟨[k], ?_⟩
      rw [hs, keysOf_setSlot]
      show (s.nodes ++ [(⟨k, v, par, 0, none, none⟩ : TNode K V Int)]).map TNode.key = _
      simp [keysOf]
    | some i =>
      simp only [h2] at h
      cases h3 : getN s i with
      | none =>
        simp only [h3] at h
        exact Option.noConfusion h
      | some nd =>
        simp only [h3] at h
        by_cases h4 : cmp k nd.key = true
        · rw [if_pos h4] at h
          cases h5 : Avl.insertHelper cmp fuel s (Slot.lf i) (some i) k v with
          | none =>
            simp only [h5] at h
            exact Option.noConfusion h
          | some trip =>
            obtain ⟨s1, r1, b1⟩ := trip
            simp only [h5] at h
            cases h6 : Avl.rotate (Avl.updateHeight s1 i) slot with
            | none =>
              simp only [h6] at h
              exact Option.noConfusion h
            | some s3 =>
              simp only [h6] at h
              injection h with h'
              have hs : s3 = s' := congrArg Prod.fst h'
              obtain ⟨t, ht⟩ := ih s (Slot.lf i) (some i) k v s1 r1 b1 h5
              refine ⟨t, ?_⟩
              rw [← hs, avlRotate_keys _ _ _ h6, keysOf_updateHeight, ht]
        · rw [if_neg h4] at h
          by_cases h7 : cmp nd.key k = true
          · rw [if_pos h7] at h
            cases h5 : Avl.insertHelper cmp fuel s (Slot.rg i) (some i) k v with
            | none =>
              simp only [h5] at h
              exact Option.noConfusion h
            | some trip =>
              obtain ⟨s1, r1, b1⟩ := trip
              simp only [h5] at h
              cases h6 : Avl.rotate (Avl.updateHeight s1 i) slot with
              | none =>
                simp only [h6] at h
                exact Option.noConfusion h
              | some s3 =>
                simp only [h6] at h
                injection h with h'
                have hs : s3 = s' := congrArg Prod.fst h'
                obtain ⟨t, ht⟩ := ih s (Slot.rg i) (some i) k v s1 r1 b1 h5
                refine ⟨t, ?_⟩
                rw [← hs, avlRotate_keys _ _ _ h6, keysOf_updateHeight, ht]
          · rw [if_neg h7] at h
            injection h with h'
            have hs : s = s' := congrArg Prod.fst h'
            exact ⟨[], by rw [← hs, List.append_nil]⟩

end KeyFrameAvl

end Algos

namespace Algos

section KeyFrameRbt

variable {K V : Type}

theorem rbtRotateRight_keys (s s' : Arena K V Bool) (slot : Slot)
    (h : Rbt.rotateRight s slot = some s') : keysOf s' = keysOf s := by
  unfold Rbt.rotateRight at h
  repeat' first
    | split at h
    | simp only [] at h
  all_goals first
    | exact Option.noConfusion h
    | (injection h with h'
       subst h'
       simp [keysOf_setLeft, keysOf_setRight, keysOf_setParent, keysOf_setSlot])

theorem rbtRotateLeft_keys (s s' : Arena K V Bool) (slot : Slot)
    (h : Rbt.rotateLeft s slot = some s') : keysOf s' = keysOf s := by
  unfold Rbt.rotateLeft at h
  repeat' first
    | split at h
    | simp only [] at h
  all_goals first
    | exact Option.noConfusion h
    | (injection h with h'
       subst h'
       simp [keysOf_setLeft, keysOf_setRight, keysOf_setParent, keysOf_setSlot])

theorem rbtRotateStepL_keys (s s' : Arena K V Bool) (slot : Slot)
    (h : Rbt.rotateStepL s slot = some s') : keysOf s' = keysOf s := by
  unfold Rbt.rotateStepL at h
  cases h1 : getSlot s slot with
  | none =>
    simp only [h1] at h
    exact Option.noConfusion h
  | some i =>
    simp only [h1] at h
    cases h2 : getN s i with
    | none =>
      simp only [h2] at h
      exact Option.noConfusion h
    | some nd =>
      simp only [h2] at h
      cases h3 : nd.left with
      | none =>
        simp only [h3] at h
        injection h with h'
        rw [← h']
      | some li =>
        simp only [h3] at h
        cases h4 : getN s li with
        | none =>
          simp only [h4] at h
          exact Option.noConfusion h
        | some lnd =>
          simp only [h4] at h
          by_cases h5 : lnd.tag = true
          · rw [if_pos h5] at h
            by_cases h6 : nd.right = none
            · rw [if_pos h6] at h
              cases h7 : Rbt.rotateRight s slot with
              | none =>
                simp only [h7] at h
                exact Option.noConfusion h
              | some s2 =>
                simp only [h7] at h
                cases h8 : getSlot s2 slot with
                | none =>
                  simp only [h8] at h
                  exact Option.noConfusion h
                | some j =>
                  simp only [h8] at h
                  injection h with h'
                  rw [← h', keysOf_setTag]
                  exact rbtRotateRight_keys _ _ _ h7
            · rw [if_neg h6] at h
              injection h with h'
              rw [← h']
          · rw [if_neg h5] at h
            injection h with h'
            rw [← h']

theorem rbtRotateStepR_keys (s s' : Arena K V Bool) (slot : Slot)
    (h : Rbt.rotateStepR s slot = some s') : keysOf s' = keysOf s := by
  unfold Rbt.rotateStepR at h
  cases h1 : getSlot s slot with
  | none =>
    simp only [h1] at h
    exact Option.noConfusion h
  | some i =>
    simp only [h1] at h
    cases h2 : getN s i with
    | none =>
      simp only [h2] at h
      exact Option.noConfusion h
    | some nd =>
      simp only [h2] at h
      cases h3 : nd.right with
      | none =>
        simp only [h3] at h
        injection h with h'
        rw [← h']
      | some ri =>
        simp only [h3] at h
        cases h4 : getN s ri with
        | none =>
          simp only [h4] at h
          exact Option.noConfusion h
        | some rnd =>
          simp only [h4] at h
          by_cases h5 : rnd.tag = true
          · rw [if_pos h5] at h
            by_cases h6 : nd.left = none
            · rw [if_pos h6] at h
              cases h7 : Rbt.rotateLeft s slot with
              | none =>
                simp only [h7] at h
                exact Option.noConfusion h
              | some s2 =>
                simp only [h7] at h
                cases h8 : getSlot s2 slot with
                | none =>
                  simp only [h8] at h
                  exact Option.noConfusion h
                | some j =>
                  simp only [h8] at h
                  injection h with h'
                  rw [← h', keysOf_setTag]
                  exact rbtRotateLeft_keys _ _ _ h7
            · rw [if_neg h6] at h
              injection h with h'
              rw [← h']
          · rw [if_neg h5] at h
            injection h with h'
            rw [← h']

theorem rbtRotate_keys (s s' : Arena K V Bool) (slot : Slot)
    (h : Rbt.rotate s slot = some s') : keysOf s' = keysOf s := by
  unfold Rbt.rotate at h
  cases h1 : getSlot s slot with
  | none =>
    simp only [h1] at h
    exact Option.noConfusion h
  | some i =>
    simp only [h1] at h
    cases h2 : getN s i with
    | none =>
      simp only [h2] at h
      exact Option.noConfusion h
    | some nd =>
      simp only [h2] at h
      by_cases h3 : nd.tag = false
      · rw [if_pos h3] at h
        injection h with h'
        rw [← h']
      · rw [if_neg h3] at h
        cases h4 : Rbt.rotateStepL s slot with
        | none =>
          simp only [h4] at h
          exact Option.noConfusion h
        | some s1 =>
          simp only [h4] at h
          exact (rbtRotateStepR_keys _ _ _ h).trans (rbtRotateStepL_keys _ _ _ h4)

theorem rbtInsertHelper_keysGrow (cmp : K → K → Bool) :
    ∀ (fuel : Nat) (st : Rbt.RState K V) (slot : Slot) (par : Option Nat)
      (k : K) (v : V) (st' : Rbt.RState K V) (r : Nat) (b : Bool),
      Rbt.insertHelper cmp fuel st slot par k v = some (st', r, b) →
      ∃ t, keysOf st'.a = keysOf st.a ++ t := by
  intro fuel
  induction fuel with
  | zero =>
    intro st slot par k v st' r b h
    exact Option.noConfusion h
  | succ fuel ih =>
    intro st slot par k v st' r b h
    unfold Rbt.insertHelper at h
    cases h2 : getSlot st.a slot with
    | none =>
      simp only [h2] at h
      injection h with h'
      have hs : st' = ⟨setSlot
          { st.a with nodes := st.a.nodes ++
            [(⟨k, v, par, par.isSome, none, none⟩ : TNode K V Bool)] }
          slot (some st.a.nodes.length), st.numElems + 1⟩ :=
        (congrArg Prod.fst h').symm
      refine ⟨[k], ?_⟩
      rw [hs]
      show keysOf (setSlot _ slot (some st.a.nodes.length)) = _
      rw [keysOf_setSlot]
      show (st.a.nodes ++ [(⟨k, v, par, _, none, none⟩ : TNode K V Bool)]).map TNode.key = _
      simp [keysOf]
    | some i =>
      simp only [h2] at h
      cases h3 : getN st.a i with
      | none =>
        simp only [h3] at h
        exact Option.noConfusion h
      | some nd =>
        simp only [h3] at h
        by_cases h4 : cmp k nd.key = true
        · rw [if_pos h4] at h
          cases h5 : Rbt.insertHelper cmp fuel st (Slot.lf i) (some i) k v with
          | none =>
            simp only [h5] at h
            exact Option.noConfusion h
          | some trip =>
            obtain ⟨st1, r1, b1⟩ := trip
            simp only [h5] at h
            cases h6 : Rbt.rotate st1.a slot with
            | none =>
              simp only [h6] at h
              exact Option.noConfusion h
            | some a3 =>
              simp only [h6] at h
              injection h with h'
              have hs : st' = ⟨a3, st1.numElems⟩ := (congrArg Prod.fst h').symm
              obtain ⟨t, ht⟩ := ih st (Slot.lf i) (some i) k v st1 r1 b1 h5
              refine ⟨t, ?_⟩
              rw [hs]
              show keysOf a3 = _
              rw [rbtRotate_keys _ _ _ h6, ht]
        · rw [if_neg h4] at h
          by_cases h7 : cmp nd.key k = true
          · rw [if_pos h7] at h
            cases h5 : Rbt.insertHelper cmp fuel st (Slot.rg i) (some i) k v with
            | none =>
              simp only [h5] at h
              exact Option.noConfusion h
            | some trip =>
              obtain ⟨st1, r1, b1⟩ := trip
              simp only [h5] at h
              cases h6 : Rbt.rotate st1.a slot with
              | none =>
                simp only [h6] at h
                exact Option.noConfusion h
              | some a3 =>
                simp only [h6] at h
                injection h with h'
                have hs : st' = ⟨a3, st1.numElems⟩ := (congrArg Prod.fst h').symm
                obtain ⟨t, ht⟩ := ih st (Slot.rg i) (some i) k v st1 r1 b1 h5
                refine ⟨t, ?_⟩
                rw [hs]
                show keysOf a3 = _
                rw [rbtRotate_keys _ _ _ h6, ht]
          · rw [if_neg h7] at h
            injection h with h'
            have hs : st = st' := congrArg Prod.fst h'
            exact ⟨[], by rw [← hs, List.append_nil]⟩

end KeyFrameRbt

end Algos

namespace Algos

section KeysAmended

theorem keysGrow_getN {K V M : Type} (s s' : Arena K V M)
    (h : ∃ t, keysOf s' = keysOf s ++ t) :
    ∀ i, i < s.nodes.length →
      (getN s' i).map TNode.key = (getN s i).map TNode.key := by
  obtain ⟨t, ht⟩ := h
  intro i hi
  have h1 : (keysOf s')[i]? = (keysOf s)[i]? := by
    rw [ht, List.getElem?_append, if_pos (by simp [keysOf, hi])]
  simpa [keysOf, List.getElem?_map, getN] using h1

/-- C9 (amended): neither tree's `insert` ever changes the key field of an
already-stored node (first-insert allocation aside, the arena's key sequence
is only extended); but the key of a node that remains in the tree is not
immutable under `erase`: a two-children erase overwrites the surviving node's
key and value with those of its in-order successor, as erasing 2 from the tree
built by inserting 2, 1, 3 concretely shows (the root node's pair becomes
`(3, 3)`). -/
theorem tree_keys_amended :
    (∀ {K V : Type} (cmp : K → K → Bool) (s : Arena K V Int) (k : K) (v : V)
        (s' : Arena K V Int) (r : Nat) (b : Bool),
      Avl.insert cmp s k v = some (s', r, b) →
      ∀ i, i < s.nodes.length →
        (getN s' i).map TNode.key = (getN s i).map TNode.key) ∧
    (∀ {K V : Type} (cmp : K → K → Bool) (st : Rbt.RState K V) (k : K) (v : V)
        (st' : Rbt.RState K V) (r : Nat) (b : Bool),
      Rbt.insert cmp st k v = some (st', r, b) →
      ∀ i, i < st.a.nodes.length →
        (getN st'.a i).map TNode.key = (getN st.a i).map TNode.key) ∧
    ((((Rbt.runIns Rbt.emptyR [2, 1, 3]).bind (fun p => Rbt.erase cmpN p.1 2)).bind
      (fun q => getN q.1.a 0)).map (fun nd => (nd.key, nd.val)) = some (3, 3)) := by
  refine ⟨?_, ?_, by decide⟩
  · intro K V cmp s k v s' r b h
    exact keysGrow_getN s s'
      (avlInsertHelper_keysGrow cmp (s.nodes.length + 1) s Slot.rt none k v s' r b h)
  · intro K V cmp st k v st' r b h
    exact keysGrow_getN st.a st'.a
      (rbtInsertHelper_keysGrow cmp (st.a.nodes.length + 1) st Slot.rt none k v st' r b h)

/-- Witness for C9 (amended) at concrete inputs: inserting the new key 2 into
the singleton trees `sC` / `stC` leaves the stored key of node 0 unchanged. -/
theorem tree_keys_amended_witness :
    Avl.insert cmpN sC 2 2 = some (sD, 1, true) ∧
    Rbt.insert cmpN stC 2 2 = some (stD, 1, true) ∧
    (getN sD 0).map TNode.key = (getN sC 0).map TNode.key ∧
    (getN stD.a 0).map TNode.key = (getN stC.a 0).map TNode.key := by
  refine ⟨by decide, by decide, ?_, ?_⟩
  · exact tree_keys_amended.1 cmpN sC 2 2 sD 1 true (by decide) 0 (by decide)
  · exact tree_keys_amended.2.1 cmpN stC 2 2 stD 1 true (by decide) 0 (by decide)

end KeysAmended

end Algos
